import Mathlib

/-!
Verification of the `inspector` module: a shallow embedding of its data model
(code objects, functions, closure cells, frames) and of its operations
(`extract_code_objects`, `map_code_objects`, `Frame.__init__`, `Frame.unwrap`,
`Frame.unwrap_decorators`, `Frame.find_decorator`), together with theorems
settling the specification's claims about them.

Python code objects are compared through their definition-site identity; the
embedding gives every code object a numeric identity `cid` and every function
object a numeric identity `fid`, and all dict/set operations on code objects
are keyed by `cid`, mirroring the host language's behaviour where two bodies
with identical text at different definition sites are distinct descriptors.
-/

/-- Embedding of a Python code object: identity, `co_name`, `co_freevars` and
`co_consts`.  A constant is either a nested code object (`some c`) or an
opaque non-code constant (`none`), mirroring the `isinstance(e, CodeType)`
test used by the source. -/
inductive Code : Type where
  | mk (cid : Nat) (co_name : String) (co_freevars : List String)
      (co_consts : List (Option Code))
deriving Inhabited

def Code.cid : Code → Nat
  | .mk i _ _ _ => i

def Code.co_name : Code → String
  | .mk _ n _ _ => n

def Code.co_freevars : Code → List String
  | .mk _ _ fv _ => fv

def Code.co_consts : Code → List (Option Code)
  | .mk _ _ _ cs => cs

mutual
/-- Embedding of a Python function object: identity, `__name__`, `__code__`
and `__closure__`.  The closure is the list of cell contents, positionally
aligned with the code object's `co_freevars`; an empty list models a `None`
closure (both are falsy in the source's `if function.__closure__:` tests). -/
inductive Fun : Type where
  | mk (fid : Nat) (py_name : String) (code : Code) (closure : List Value)

/-- Content of a closure cell: either a callable (a function object, the only
callables the inspector ever recurses into) or an opaque non-callable value
carrying a tag so distinct data values stay distinct. -/
inductive Value : Type where
  | vfun (f : Fun)
  | vdata (tag : Nat)
end

def Fun.fid : Fun → Nat
  | .mk i _ _ _ => i

def Fun.py_name : Fun → String
  | .mk _ n _ _ => n

def Fun.code : Fun → Code
  | .mk _ _ c _ => c

def Fun.closure : Fun → List Value
  | .mk _ _ _ cl => cl

/-- Code-object constants of a code object, in order: the embedding of
`[e for e in code.co_consts if isinstance(e, code.__class__)]`. -/
def codeConsts (c : Code) : List Code :=
  c.co_consts.filterMap id

theorem filterMap_id_weight_lt (l : List (Option Code)) :
    (((l.filterMap id).map sizeOf).sum : Nat) < sizeOf l := by
  induction l with
  | nil => simp
  | cons a rest ih =>
    cases a with
    | none =>
      rw [show List.filterMap id (none :: rest) = List.filterMap id rest from rfl]
      simp only [List.cons.sizeOf_spec, Option.none.sizeOf_spec]
      omega
    | some c =>
      rw [show List.filterMap id (some c :: rest) = c :: List.filterMap id rest from rfl]
      simp only [List.cons.sizeOf_spec, Option.some.sizeOf_spec, List.map_cons,
        List.sum_cons]
      omega

theorem codeConsts_weight_lt (c : Code) :
    (((codeConsts c).map sizeOf).sum : Nat) < sizeOf c := by
  cases c with
  | mk i n fv cs =>
    have h := filterMap_id_weight_lt cs
    simp only [codeConsts, Code.co_consts, Code.mk.sizeOf_spec]
    omega

theorem code_sizeOf_pos (c : Code) : 0 < sizeOf c := by
  cases c with
  | mk i n fv cs => simp only [Code.mk.sizeOf_spec]; omega

/-- Breadth-first enumeration of code objects: the `while pending:` loop of
`extract_code_objects` — pop the queue's front, yield it, append its
code-object constants at the back. -/
def bfsCodes : List Code → List Code
  | [] => []
  | c :: pending => c :: bfsCodes (pending ++ codeConsts c)
termination_by l => ((l.map sizeOf).sum : Nat)
decreasing_by
  simp only [List.map_append, List.sum_append, List.map_cons, List.sum_cons]
  have h := codeConsts_weight_lt c
  omega

mutual
/-- Embedding of `extract_code_objects(function)`: first the breadth-first
walk of the function's own code object, then, for every closure cell holding
a callable, the full recursive extraction of that callable. -/
def extract_code_objects (f : Fun) : List Code :=
  bfsCodes [f.code] ++ extractClosure f.closure
termination_by sizeOf f
decreasing_by
  cases f with
  | mk i n c cl => simp only [Fun.closure, Fun.mk.sizeOf_spec]; omega

/-- Closure part of `extract_code_objects`: the `for cell in function.__closure__`
loop, recursing into each cell value that is callable. -/
def extractClosure : List Value → List Code
  | [] => []
  | .vfun g :: rest => extract_code_objects g ++ extractClosure rest
  | .vdata _ :: rest => extractClosure rest
termination_by l => sizeOf l
decreasing_by
  · simp only [List.cons.sizeOf_spec, Value.vfun.sizeOf_spec]; omega
  · simp only [List.cons.sizeOf_spec]; omega
  · simp only [List.cons.sizeOf_spec]; omega
end

-- Sanity examples for extraction on small concrete inputs.

/-- A code object with no free variables and no nested code. -/
def leafCode (i : Nat) (n : String) : Code := Code.mk i n [] []

def some_fun : Fun := Fun.mk 1 "some_fun" (leafCode 1 "some_fun") []

example : extract_code_objects some_fun = [leafCode 1 "some_fun"] := by
  simp [extract_code_objects, extractClosure, some_fun, bfsCodes, codeConsts,
    leafCode, Fun.code, Fun.closure, Code.co_consts]

/-!
Dictionary and set operations on code objects.

Python dictionaries keyed by code objects and sets of code objects use the
host language's code-object equality; the embedding keys both by the code
identity `cid`.  A dictionary is an association list to which fresh keys are
appended (Python dicts preserve insertion order); `del` removes the key's
entries; set insertion conses.
-/

/-- Lookup in a code-keyed dictionary, the embedding of `d[code]` /
`code in d`. -/
def lookupCode (m : List (Code × Fun)) (c : Code) : Option Fun :=
  match m with
  | [] => none
  | (c', f) :: rest => if c'.cid == c.cid then some f else lookupCode rest c

/-- Deletion from a code-keyed dictionary, the embedding of `del d[code]`. -/
def removeCode (m : List (Code × Fun)) (c : Code) : List (Code × Fun) :=
  m.filter (fun p => p.1.cid != c.cid)

/-- Membership in a set of code objects, the embedding of `code in s`. -/
def memCode (s : List Code) (c : Code) : Bool :=
  s.any (fun c' => c'.cid == c.cid)

/-- Body of the inner loop of `map_code_objects`: process one extracted code
object `c` yielded while scanning the candidate `function`, updating the
`(code_to_function, ambiguous_code)` state. -/
def mapStep (function : Fun) (st : List (Code × Fun) × List Code) (c : Code) :
    List (Code × Fun) × List Code :=
  if memCode st.2 c then st
  else if (lookupCode st.1 c).isSome then (removeCode st.1 c, c :: st.2)
  else (st.1 ++ [(c, function)], st.2)

/-- Embedding of `map_code_objects(functions)`: fold the extraction of every
candidate function through `mapStep`, starting from an empty map and an empty
ambiguous set. -/
def map_code_objects (functions : List Fun) : List (Code × Fun) × List Code :=
  functions.foldl
    (fun st function => (extract_code_objects function).foldl (mapStep function) st)
    ([], [])

/-- Extraction stream over a whole candidate list, each yielded code object
tagged with the candidate function that yielded it.  `map_code_objects` is
exactly a left fold of `mapStep` over this stream. -/
def taggedExtract (functions : List Fun) : List (Code × Fun) :=
  functions.flatMap (fun function => (extract_code_objects function).map (fun c => (c, function)))

/-- Untagged step applied to a tagged code object. -/
def mapStepT (st : List (Code × Fun) × List Code) (p : Code × Fun) :
    List (Code × Fun) × List Code :=
  mapStep p.2 st p.1

theorem foldl_flatMap {α β σ : Type} (g : α → List β) (f : σ → β → σ)
    (l : List α) (init : σ) :
    (l.flatMap g).foldl f init = l.foldl (fun st a => (g a).foldl f st) init := by
  induction l generalizing init with
  | nil => rfl
  | cons a rest ih =>
    simp only [List.flatMap_cons, List.foldl_append, List.foldl_cons]
    exact ih _

theorem map_code_objects_eq_fold (functions : List Fun) :
    map_code_objects functions = (taggedExtract functions).foldl mapStepT ([], []) := by
  rw [map_code_objects, taggedExtract, foldl_flatMap]
  congr 1
  funext st function
  rw [List.foldl_map]
  rfl

/-- Number of occurrences (by code identity) of `c` in a tagged extraction
stream. -/
def countCode (l : List (Code × Fun)) (c : Code) : Nat :=
  (l.filter (fun p => p.1.cid == c.cid)).length

/-!
State evolution of the origin-map builder.  The state is classified, for one
code identity, as clean (never seen), mapped (seen exactly once so far) or
ambiguous (seen at least twice); `mapStep` moves a code identity along
clean → mapped → ambiguous and then keeps it ambiguous.
-/

def cleanState (st : List (Code × Fun) × List Code) (c : Code) : Prop :=
  lookupCode st.1 c = none ∧ memCode st.2 c = false

def mappedState (st : List (Code × Fun) × List Code) (c : Code) (fn : Fun) : Prop :=
  lookupCode st.1 c = some fn ∧ memCode st.2 c = false

def ambState (st : List (Code × Fun) × List Code) (c : Code) : Prop :=
  lookupCode st.1 c = none ∧ memCode st.2 c = true

/-- Disjointness invariant: no code identity is at once a map key and an
ambiguous-set member. -/
def InvMap (st : List (Code × Fun) × List Code) : Prop :=
  ∀ c : Code, (lookupCode st.1 c).isSome = true → memCode st.2 c = false

theorem lookupCode_congr (m : List (Code × Fun)) {a b : Code} (h : a.cid = b.cid) :
    lookupCode m a = lookupCode m b := by
  induction m with
  | nil => rfl
  | cons p rest ih =>
    obtain ⟨c', f⟩ := p
    simp only [lookupCode, h]
    rw [ih]

theorem memCode_congr (s : List Code) {a b : Code} (h : a.cid = b.cid) :
    memCode s a = memCode s b := by
  simp only [memCode, h]

theorem lookupCode_append {m m' : List (Code × Fun)} {c : Code} :
    lookupCode (m ++ m') c =
      match lookupCode m c with
      | some f => some f
      | none => lookupCode m' c := by
  induction m with
  | nil => rfl
  | cons p rest ih =>
    obtain ⟨c', f⟩ := p
    simp only [List.cons_append, lookupCode]
    by_cases h : c'.cid == c.cid
    · simp [h]
    · simp only [h, if_false, Bool.false_eq_true]
      exact ih

theorem lookupCode_removeCode_self {m : List (Code × Fun)} {c c' : Code}
    (h : c'.cid = c.cid) : lookupCode (removeCode m c) c' = none := by
  induction m with
  | nil => rfl
  | cons p rest ih =>
    obtain ⟨ck, f⟩ := p
    simp only [removeCode, List.filter_cons]
    by_cases hk : ck.cid = c.cid
    · simp only [hk, bne_self_eq_false, if_false, Bool.false_eq_true]
      exact ih
    · have : (ck.cid != c.cid) = true := by simp [bne, hk]
      simp only [this, if_true]
      simp only [lookupCode]
      have : (ck.cid == c'.cid) = false := by
        simp only [beq_eq_false_iff_ne, ne_eq]
        rw [h]; exact hk
      simp only [this, if_false, Bool.false_eq_true]
      exact ih

theorem lookupCode_removeCode_ne {m : List (Code × Fun)} {c c' : Code}
    (h : ¬ c'.cid = c.cid) : lookupCode (removeCode m c) c' = lookupCode m c' := by
  induction m with
  | nil => rfl
  | cons p rest ih =>
    obtain ⟨ck, f⟩ := p
    by_cases hk : ck.cid = c.cid
    · have h1 : removeCode ((ck, f) :: rest) c = removeCode rest c := by
        simp [removeCode, List.filter_cons, hk]
      rw [h1, ih]
      have h2 : (ck.cid == c'.cid) = false := by
        simp only [beq_eq_false_iff_ne, ne_eq, hk]
        intro hh; exact h hh.symm
      simp only [lookupCode, h2, if_false, Bool.false_eq_true]
    · have h1 : removeCode ((ck, f) :: rest) c = (ck, f) :: removeCode rest c := by
        simp [removeCode, List.filter_cons, bne, hk]
      rw [h1]
      simp only [lookupCode]
      rw [ih]

theorem memCode_cons {s : List Code} {a c : Code} :
    memCode (a :: s) c = (a.cid == c.cid || memCode s c) := by
  simp [memCode, List.any_cons]

theorem cid_beq_false {a b : Code} (h : ¬ a.cid = b.cid) : (a.cid == b.cid) = false := by
  simp [beq_eq_false_iff_ne, h]

theorem mapStepT_local {s : List (Code × Fun) × List Code} {p : Code × Fun} {c : Code}
    (h : ¬ p.1.cid = c.cid) :
    lookupCode (mapStepT s p).1 c = lookupCode s.1 c ∧
      memCode (mapStepT s p).2 c = memCode s.2 c := by
  obtain ⟨pc, pf⟩ := p
  simp only [mapStepT, mapStep]
  cases h1 : memCode s.2 pc with
  | true => simp
  | false =>
    simp only [Bool.false_eq_true, if_false]
    cases h2 : (lookupCode s.1 pc).isSome with
    | true =>
      simp only [if_true]
      refine ⟨lookupCode_removeCode_ne (fun hh => h hh.symm), ?_⟩
      rw [memCode_cons, cid_beq_false h, Bool.false_or]
    | false =>
      simp only [Bool.false_eq_true, if_false]
      refine ⟨?_, by trivial⟩
      rw [lookupCode_append]
      cases hl : lookupCode s.1 c with
      | some f => rfl
      | none => simp [lookupCode, cid_beq_false h]

theorem mapStepT_clean {s : List (Code × Fun) × List Code} {p : Code × Fun} {c : Code}
    (hc : cleanState s c) (h : p.1.cid = c.cid) :
    mappedState (mapStepT s p) c p.2 := by
  obtain ⟨pc, pf⟩ := p
  obtain ⟨hl, hm⟩ := hc
  simp only at h
  have hm' : memCode s.2 pc = false := by rw [memCode_congr s.2 h]; exact hm
  have hl' : lookupCode s.1 pc = none := by rw [lookupCode_congr s.1 h]; exact hl
  simp only [mapStepT, mapStep, hm', Bool.false_eq_true, if_false, hl',
    Option.isSome_none]
  constructor
  · rw [lookupCode_append, hl]
    simp [lookupCode, h]
  · exact hm

theorem mapStepT_mapped {s : List (Code × Fun) × List Code} {p : Code × Fun} {c : Code}
    {fn : Fun} (hc : mappedState s c fn) (h : p.1.cid = c.cid) :
    ambState (mapStepT s p) c := by
  obtain ⟨pc, pf⟩ := p
  obtain ⟨hl, hm⟩ := hc
  simp only at h
  have hm' : memCode s.2 pc = false := by rw [memCode_congr s.2 h]; exact hm
  have hl' : lookupCode s.1 pc = some fn := by rw [lookupCode_congr s.1 h]; exact hl
  simp only [mapStepT, mapStep, hm', Bool.false_eq_true, if_false, hl',
    Option.isSome_some, if_true]
  constructor
  · exact lookupCode_removeCode_self h.symm
  · rw [memCode_cons, h]
    simp

theorem mapStepT_amb {s : List (Code × Fun) × List Code} {p : Code × Fun} {c : Code}
    (hc : ambState s c) (h : p.1.cid = c.cid) :
    mapStepT s p = s := by
  obtain ⟨pc, pf⟩ := p
  obtain ⟨hl, hm⟩ := hc
  simp only at h
  have hm' : memCode s.2 pc = true := by rw [memCode_congr s.2 h]; exact hm
  simp only [mapStepT, mapStep, hm', if_true]

theorem invMap_step {st : List (Code × Fun) × List Code} (p : Code × Fun)
    (hinv : InvMap st) : InvMap (mapStepT st p) := by
  obtain ⟨pc, pf⟩ := p
  intro c hc
  by_cases h : pc.cid = c.cid
  · cases ha : memCode st.2 c with
    | true =>
      cases hll : lookupCode st.1 c with
      | some f =>
        have hfalse := hinv c (by rw [hll]; rfl)
        rw [hfalse] at ha
        exact absurd ha (by simp)
      | none =>
        have hid := mapStepT_amb (s := st) (c := c) ⟨hll, ha⟩ (p := (pc, pf)) h
        rw [hid] at hc
        rw [hll] at hc
        simp at hc
    | false =>
      cases hll : lookupCode st.1 c with
      | some f =>
        have hres := mapStepT_mapped (s := st) ⟨hll, ha⟩ (p := (pc, pf)) h
        rw [hres.1] at hc
        simp at hc
      | none =>
        have hres := mapStepT_clean (s := st) ⟨hll, ha⟩ (p := (pc, pf)) h
        exact hres.2
  · obtain ⟨h1, h2⟩ := mapStepT_local (s := st) (p := (pc, pf)) h
    rw [h2]
    rw [h1] at hc
    exact hinv c hc

theorem countCode_cons {p : Code × Fun} {l : List (Code × Fun)} {c : Code} :
    countCode (p :: l) c = (if p.1.cid == c.cid then 1 else 0) + countCode l c := by
  simp only [countCode, List.filter_cons]
  by_cases h : p.1.cid == c.cid
  · simp only [h, if_true, List.length_cons]
    omega
  · simp [h]

theorem countCode_append {l₁ l₂ : List (Code × Fun)} {c : Code} :
    countCode (l₁ ++ l₂) c = countCode l₁ c + countCode l₂ c := by
  simp [countCode, List.filter_append]

theorem countCode_pos_of_mem {p : Code × Fun} {l : List (Code × Fun)} {c : Code}
    (hp : p ∈ l) (h : p.1.cid = c.cid) : 1 ≤ countCode l c := by
  simp only [countCode]
  have : p ∈ l.filter (fun q => q.1.cid == c.cid) := by
    rw [List.mem_filter]
    exact ⟨hp, by simp [h]⟩
  calc 1 ≤ 1 := le_refl 1
    _ ≤ (l.filter (fun q => q.1.cid == c.cid)).length :=
      List.length_pos.mpr (List.ne_nil_of_mem this)

theorem countCode_pos_split {l : List (Code × Fun)} {c : Code}
    (h : 1 ≤ countCode l c) :
    ∃ l₁ p l₂, l = l₁ ++ p :: l₂ ∧ p.1.cid = c.cid ∧ countCode l₁ c = 0 ∧
      countCode l₂ c + 1 = countCode l c := by
  induction l with
  | nil => simp [countCode] at h
  | cons q rest ih =>
    by_cases hq : q.1.cid = c.cid
    · refine ⟨[], q, rest, rfl, hq, rfl, ?_⟩
      rw [countCode_cons]
      simp [hq]
      omega
    · have hc : countCode (q :: rest) c = countCode rest c := by
        rw [countCode_cons, cid_beq_false hq]
        simp
      rw [hc] at h
      obtain ⟨l₁, p, l₂, heq, hp, h₁, h₂⟩ := ih h
      refine ⟨q :: l₁, p, l₂, by rw [heq, List.cons_append], hp, ?_, ?_⟩
      · rw [countCode_cons, cid_beq_false hq, h₁]
        simp
      · rw [hc, ← h₂]

theorem invMap_fold {st : List (Code × Fun) × List Code} (l : List (Code × Fun))
    (hinv : InvMap st) : InvMap (l.foldl mapStepT st) := by
  induction l generalizing st with
  | nil => exact hinv
  | cons p rest ih =>
    rw [List.foldl_cons]
    exact ih (invMap_step p hinv)

theorem fold_local {s : List (Code × Fun) × List Code} {c : Code}
    (l : List (Code × Fun)) (h : countCode l c = 0) :
    lookupCode (l.foldl mapStepT s).1 c = lookupCode s.1 c ∧
      memCode (l.foldl mapStepT s).2 c = memCode s.2 c := by
  induction l generalizing s with
  | nil => exact ⟨rfl, rfl⟩
  | cons p rest ih =>
    rw [countCode_cons] at h
    by_cases hp : p.1.cid = c.cid
    · simp [hp] at h
    · have hrest : countCode rest c = 0 := by
        rw [cid_beq_false hp] at h
        simpa using h
      rw [List.foldl_cons]
      obtain ⟨h1, h2⟩ := mapStepT_local (s := s) hp
      obtain ⟨h3, h4⟩ := ih (s := mapStepT s p) hrest
      exact ⟨h3.trans h1, h4.trans h2⟩

theorem fold_amb {st : List (Code × Fun) × List Code} {c : Code}
    (l : List (Code × Fun)) (h : ambState st c) :
    ambState (l.foldl mapStepT st) c := by
  induction l generalizing st with
  | nil => exact h
  | cons p rest ih =>
    rw [List.foldl_cons]
    by_cases hp : p.1.cid = c.cid
    · rw [mapStepT_amb h hp]
      exact ih h
    · obtain ⟨h1, h2⟩ := mapStepT_local (s := st) hp
      exact ih ⟨h1.trans h.1, h2.trans h.2⟩

theorem fold_mapped_seen {st : List (Code × Fun) × List Code} {c : Code} {fn : Fun}
    (l : List (Code × Fun)) (hinv : InvMap st) (hm : mappedState st c fn)
    (h : 1 ≤ countCode l c) : ambState (l.foldl mapStepT st) c := by
  induction l generalizing st fn with
  | nil => simp [countCode] at h
  | cons p rest ih =>
    rw [List.foldl_cons]
    by_cases hp : p.1.cid = c.cid
    · exact fold_amb rest (mapStepT_mapped hm hp)
    · have hrest : 1 ≤ countCode rest c := by
        rw [countCode_cons, cid_beq_false hp] at h
        simpa using h
      obtain ⟨h1, h2⟩ := mapStepT_local (s := st) hp
      exact ih (invMap_step p hinv) ⟨h1.trans hm.1, h2.trans hm.2⟩ hrest

theorem invMap_empty : InvMap (([], []) : List (Code × Fun) × List Code) := by
  intro c hc
  simp [lookupCode] at hc

/-- Disjointness of the two outputs of `map_code_objects`: no code identity is
at once an origin-map key and an ambiguous-set member. -/
theorem invMap_map_code_objects (functions : List Fun) :
    InvMap (map_code_objects functions) := by
  rw [map_code_objects_eq_fold]
  exact invMap_fold _ invMap_empty

/-- A code identity never yielded by the tagged extraction stream is in
neither output. -/
theorem mco_clean (functions : List Fun) (c : Code)
    (h : countCode (taggedExtract functions) c = 0) :
    cleanState (map_code_objects functions) c := by
  rw [map_code_objects_eq_fold]
  obtain ⟨h1, h2⟩ := fold_local (s := ([], [])) (taggedExtract functions) h
  exact ⟨h1, h2⟩

/-- A code identity yielded exactly once ends up mapped to the candidate that
yielded it, and is not ambiguous. -/
theorem mco_unique (functions : List Fun) (c : Code)
    (h : countCode (taggedExtract functions) c = 1) {p : Code × Fun}
    (hp : p ∈ taggedExtract functions) (hpc : p.1.cid = c.cid) :
    mappedState (map_code_objects functions) c p.2 := by
  obtain ⟨l₁, p₀, l₂, heq, hp₀, h₁, h₂⟩ := countCode_pos_split (l := taggedExtract functions)
    (c := c) (by omega)
  have hpp : p = p₀ := by
    rw [heq] at hp
    rcases List.mem_append.mp hp with hmem | hmem
    · exact absurd (countCode_pos_of_mem hmem hpc) (by omega)
    · rcases List.mem_cons.mp hmem with hmem' | hmem'
      · exact hmem'
      · have := countCode_pos_of_mem hmem' hpc
        rw [h] at h₂
        omega
  subst hpp
  have hl₂ : countCode l₂ c = 0 := by
    rw [h] at h₂
    omega
  rw [map_code_objects_eq_fold, heq, List.foldl_append, List.foldl_cons]
  have hclean : cleanState (l₁.foldl mapStepT ([], [])) c := by
    obtain ⟨ha, hb⟩ := fold_local (s := ([], [])) l₁ h₁
    exact ⟨ha, hb⟩
  have hmapped := mapStepT_clean hclean hpc
  obtain ⟨ha, hb⟩ := fold_local (s := mapStepT (l₁.foldl mapStepT ([], [])) p) l₂ hl₂
  exact ⟨ha.trans hmapped.1, hb.trans hmapped.2⟩

/-- A code identity yielded at least twice ends up in the ambiguous set and
out of the origin map. -/
theorem mco_multi (functions : List Fun) (c : Code)
    (h : 2 ≤ countCode (taggedExtract functions) c) :
    ambState (map_code_objects functions) c := by
  obtain ⟨l₁, p₀, l₂, heq, hp₀, h₁, h₂⟩ := countCode_pos_split (l := taggedExtract functions)
    (c := c) (by omega)
  rw [map_code_objects_eq_fold, heq, List.foldl_append, List.foldl_cons]
  have hclean : cleanState (l₁.foldl mapStepT ([], [])) c := by
    obtain ⟨ha, hb⟩ := fold_local (s := ([], [])) l₁ h₁
    exact ⟨ha, hb⟩
  have hmapped := mapStepT_clean hclean hp₀
  refine fold_mapped_seen l₂ ?_ hmapped ?_
  · exact invMap_step p₀ (invMap_fold l₁ invMap_empty)
  · omega

/-!
The Frame tree.  `Frame.__init__` walks the function's cells once, storing
every capture binding in `context` and additionally a recursively built
sub-Frame in `subframes` for every callable capture value.  Both attributes
are insertion-ordered dictionaries keyed by capture name.
-/

/-- Embedding of the `Frame` class: the wrapped function (`self.fun`), the
`context` dictionary (capture name → cell value) and the `subframes`
dictionary (capture name → recursively built Frame). -/
inductive Frame : Type where
  | mk (fn : Fun) (context : List (String × Value)) (subframes : List (String × Frame))

def Frame.fn : Frame → Fun
  | .mk f _ _ => f

def Frame.context : Frame → List (String × Value)
  | .mk _ c _ => c

def Frame.subframes : Frame → List (String × Frame)
  | .mk _ _ s => s

/-- Assignment `d[k] = v` on an insertion-ordered dictionary: replace the
value in place when the key is present, else append at the end. -/
def upsert {α : Type} (m : List (String × α)) (k : String) (v : α) :
    List (String × α) :=
  match m with
  | [] => [(k, v)]
  | (k', v') :: rest => if k' == k then (k', v) :: rest else (k', v') :: upsert rest k v

/-- Dictionary built by successive `d[k] = v` assignments in list order. -/
def dictOf {α : Type} (l : List (String × α)) : List (String × α) :=
  l.foldl (fun m p => upsert m p.1 p.2) []

/-- Embedding of `Frame._get_cells`: the (free-variable name, cell value)
pairs `zip(co_freevars, closure)`, or the empty list when the closure is
empty (falsy). -/
def getCells (f : Fun) : List (String × Value) :=
  match f.closure with
  | [] => []
  | _ :: _ => f.code.co_freevars.zip f.closure

theorem fun_sizeOf_pos (f : Fun) : 0 < sizeOf f := by
  cases f with
  | mk i n c cl => simp only [Fun.mk.sizeOf_spec]; omega

theorem zip_snd_weight_lt (l1 : List String) (l2 : List Value) :
    (((l1.zip l2).map (fun p => sizeOf p.2)).sum : Nat) < sizeOf l2 := by
  induction l1 generalizing l2 with
  | nil =>
    cases l2 with
    | nil => simp
    | cons b rest => simp only [List.zip_nil_left, List.map_nil, List.sum_nil,
        List.cons.sizeOf_spec]; omega
  | cons a rest1 ih =>
    cases l2 with
    | nil => simp
    | cons b rest2 =>
      have h := ih rest2
      simp only [List.zip_cons_cons, List.map_cons, List.sum_cons,
        List.cons.sizeOf_spec]
      omega

theorem getCells_weight_lt (f : Fun) :
    (((getCells f).map (fun p => sizeOf p.2)).sum : Nat) < sizeOf f := by
  cases f with
  | mk i n c cl =>
    cases cl with
    | nil => simp [getCells, Fun.closure, Fun.mk.sizeOf_spec]
    | cons v rest =>
      have h := zip_snd_weight_lt (Code.co_freevars c) (v :: rest)
      simp only [getCells, Fun.closure, Fun.code, Fun.mk.sizeOf_spec]
      simp only [List.cons.sizeOf_spec] at h ⊢
      omega

mutual
/-- Embedding of `Frame.__init__(fun)`: record the function, fill `context`
with every capture binding and `subframes` with a recursively built Frame for
every callable capture value. -/
def buildFrame (f : Fun) : Frame :=
  Frame.mk f (dictOf (getCells f)) (buildSubframes [] (getCells f))
termination_by 2 * sizeOf f
decreasing_by
  have h := getCells_weight_lt f
  omega

/-- Cell loop of `Frame.__init__`: processes the cells in order, upserting a
recursively built Frame for each callable cell value into the accumulated
`subframes` dictionary. -/
def buildSubframes (acc : List (String × Frame)) :
    List (String × Value) → List (String × Frame)
  | [] => acc
  | (n, .vfun g) :: rest => buildSubframes (upsert acc n (buildFrame g)) rest
  | (_, .vdata _t) :: rest => buildSubframes acc rest
termination_by l => 2 * ((l.map (fun p => sizeOf p.2)).sum : Nat) + 1
decreasing_by
  · simp only [List.map_cons, List.sum_cons, Value.vfun.sizeOf_spec]
    omega
  · simp only [List.map_cons, List.sum_cons, Value.vfun.sizeOf_spec]
    have h := fun_sizeOf_pos g
    omega
  · simp only [List.map_cons, List.sum_cons, Value.vdata.sizeOf_spec]
    omega
end

theorem frame_sizeOf_pos (fr : Frame) : 0 < sizeOf fr := by
  cases fr with
  | mk f c s => simp only [Frame.mk.sizeOf_spec]; omega

theorem subs_weight_lt (l : List (String × Frame)) :
    ((l.map (fun p => sizeOf p.2)).sum : Nat) < sizeOf l := by
  induction l with
  | nil => simp
  | cons p rest ih =>
    obtain ⟨n, sub⟩ := p
    simp only [List.map_cons, List.sum_cons, List.cons.sizeOf_spec,
      Prod.mk.sizeOf_spec]
    omega

mutual
/-- Embedding of `Frame.unwrap()`: a terminal Frame yields the single chain
holding a freshly rebuilt Frame over the same function; a non-terminal Frame
yields, for each subframe in order, every subchain of that subframe prefixed
with this Frame. -/
def Frame.unwrap : Frame → List (List Frame)
  | .mk fn _ctx [] => [[buildFrame fn]]
  | .mk fn ctx (s :: rest) => unwrapSubs (Frame.mk fn ctx (s :: rest)) (s :: rest)
termination_by fr => 2 * sizeOf fr
decreasing_by
  have h := subs_weight_lt (s :: rest)
  simp only [Frame.mk.sizeOf_spec]
  omega

/-- Subframe loop of `Frame.unwrap`: for each subframe value in dictionary
order, yield `[first_frame] + subchain` for every subchain of its `unwrap`. -/
def unwrapSubs (first_frame : Frame) : List (String × Frame) → List (List Frame)
  | [] => []
  | (_, sub) :: rest =>
      (Frame.unwrap sub).map (fun subchain => first_frame :: subchain) ++
        unwrapSubs first_frame rest
termination_by l => 2 * ((l.map (fun p => sizeOf p.2)).sum : Nat) + 1
decreasing_by
  · simp only [List.map_cons, List.sum_cons]
    omega
  · simp only [List.map_cons, List.sum_cons]
    have h := frame_sizeOf_pos sub
    omega
end

/-- First decorator matched by a frame's reachable code objects: the loop of
the local helper `find_decorator(frame)` inside `unwrap_decorators`, scanning
the extraction stream for the first code object present in the origin map. -/
def lookupFirst (m : List (Code × Fun)) : List Code → Option Fun
  | [] => none
  | c :: rest =>
      match lookupCode m c with
      | some d => some d
      | none => lookupFirst m rest

/-- Embedding of `Frame.unwrap_decorators(decorators)`: build the origin map
over the decorator list, then annotate every frame of every unwrapped chain
with the first matched decorator (or none). -/
def Frame.unwrap_decorators (fr : Frame) (decorators : List Fun) :
    List (List (Frame × Option Fun)) :=
  let code_to_decorator := (map_code_objects decorators).1
  fr.unwrap.map (fun unwrap_chain =>
    unwrap_chain.map (fun frame =>
      (frame, lookupFirst code_to_decorator (extract_code_objects frame.fn))))

/-- First reachable code object of a frame that belongs to the decorator's
code-object set: the `for code in extract_code_objects(frame.fun)` loop of
`Frame.find_decorator`, with its `break` after the first hit. -/
def find_first_code (codes : List Code) : List Code → Option Code
  | [] => none
  | c :: rest => if memCode codes c then some c else find_first_code codes rest

/-- Queue loop of `Frame.find_decorator`: pop the front frame, yield its
first matching code object (if any), and enqueue its subframe values. -/
def frameQueueBFS (codes : List Code) : List Frame → List (Frame × Code)
  | [] => []
  | fr :: rest =>
      (match find_first_code codes (extract_code_objects fr.fn) with
       | some c => [(fr, c)]
       | none => []) ++
        frameQueueBFS codes (rest ++ fr.subframes.map Prod.snd)
termination_by l => ((l.map sizeOf).sum : Nat)
decreasing_by
  simp only [List.map_append, List.sum_append, List.map_cons, List.sum_cons]
  have h1 : ((fr.subframes.map Prod.snd).map sizeOf).sum < sizeOf fr := by
    cases fr with
    | mk f c s =>
      have h := subs_weight_lt s
      have h2 : (s.map Prod.snd).map sizeOf = s.map (fun p => sizeOf p.2) := by
        rw [List.map_map]
        rfl
      simp only [Frame.subframes, h2, Frame.mk.sizeOf_spec]
      omega
  omega

/-- Embedding of `Frame.find_decorator(decorator)`: breadth-first search of
the frame tree for frames whose reachable code objects intersect the
decorator's code-object set. -/
def Frame.find_decorator (fr : Frame) (decorator : Fun) : List (Frame × Code) :=
  frameQueueBFS (extract_code_objects decorator) [fr]

/-- Breadth-first enumeration of all frames of a frame tree, the visiting
order of `Frame.find_decorator`'s queue. -/
def bfsFrames : List Frame → List Frame
  | [] => []
  | fr :: rest => fr :: bfsFrames (rest ++ fr.subframes.map Prod.snd)
termination_by l => ((l.map sizeOf).sum : Nat)
decreasing_by
  simp only [List.map_append, List.sum_append, List.map_cons, List.sum_cons]
  have h1 : ((fr.subframes.map Prod.snd).map sizeOf).sum < sizeOf fr := by
    cases fr with
    | mk f c s =>
      have h := subs_weight_lt s
      have h2 : (s.map Prod.snd).map sizeOf = s.map (fun p => sizeOf p.2) := by
        rw [List.map_map]
        rfl
      simp only [Frame.subframes, h2, Frame.mk.sizeOf_spec]
      omega
  omega

mutual
/-- Number of terminal frames (frames with no subframes) of a frame tree:
the number of distinct root-to-terminal paths through the capture tree. -/
def countTerminals : Frame → Nat
  | .mk _ _ [] => 1
  | .mk _fn _ctx (s :: rest) => countTerminalsList (s :: rest)
termination_by fr => 2 * sizeOf fr
decreasing_by
  have h := subs_weight_lt (s :: rest)
  simp only [Frame.mk.sizeOf_spec]
  omega

/-- Sum of the terminal counts of a list of subframes. -/
def countTerminalsList : List (String × Frame) → Nat
  | [] => 0
  | (_, sub) :: rest => countTerminals sub + countTerminalsList rest
termination_by l => 2 * ((l.map (fun p => sizeOf p.2)).sum : Nat) + 1
decreasing_by
  · simp only [List.map_cons, List.sum_cons]
    omega
  · simp only [List.map_cons, List.sum_cons]
    have h := frame_sizeOf_pos sub
    omega
end

theorem buildFrame_def (f : Fun) :
    buildFrame f = Frame.mk f (dictOf (getCells f)) (buildSubframes [] (getCells f)) := by
  rw [buildFrame]

theorem buildFrame_fn (f : Fun) : (buildFrame f).fn = f := by
  rw [buildFrame_def]
  rfl

theorem buildFrame_context (f : Fun) :
    (buildFrame f).context = dictOf (getCells f) := by
  rw [buildFrame_def]
  rfl

theorem buildFrame_subframes (f : Fun) :
    (buildFrame f).subframes = buildSubframes [] (getCells f) := by
  rw [buildFrame_def]
  rfl

theorem unwrap_terminal {g : Frame} (h : g.subframes = []) :
    g.unwrap = [[buildFrame g.fn]] := by
  cases g with
  | mk fn ctx subs =>
    simp only [Frame.subframes] at h
    subst h
    rw [Frame.unwrap]
    rfl

theorem unwrap_nonterminal {fn : Fun} {ctx : List (String × Value)}
    {s : String × Frame} {rest : List (String × Frame)} :
    (Frame.mk fn ctx (s :: rest)).unwrap =
      unwrapSubs (Frame.mk fn ctx (s :: rest)) (s :: rest) := by
  rw [Frame.unwrap]

theorem unwrapSubs_cons {ff : Frame} {nm : String} {sub : Frame}
    {rest : List (String × Frame)} :
    unwrapSubs ff ((nm, sub) :: rest) =
      (Frame.unwrap sub).map (fun subchain => ff :: subchain) ++ unwrapSubs ff rest := by
  rw [unwrapSubs]

theorem unwrapSubs_mem {ff : Frame} {l : List (String × Frame)}
    {chain : List Frame} (h : chain ∈ unwrapSubs ff l) :
    ∃ nm sub subchain, (nm, sub) ∈ l ∧ subchain ∈ sub.unwrap ∧
      chain = ff :: subchain := by
  induction l with
  | nil => rw [unwrapSubs] at h; cases h
  | cons p rest ih =>
    obtain ⟨nm, sub⟩ := p
    rw [unwrapSubs_cons] at h
    rcases List.mem_append.mp h with h' | h'
    · obtain ⟨subchain, hsc, heq⟩ := List.mem_map.mp h'
      exact ⟨nm, sub, subchain, List.mem_cons_self _ _, hsc, heq.symm⟩
    · obtain ⟨nm', sub', subchain, hmem, hsc, heq⟩ := ih h'
      exact ⟨nm', sub', subchain, List.mem_cons_of_mem _ hmem, hsc, heq⟩

theorem sizeOf_snd_lt_of_mem {p : String × Frame} {l : List (String × Frame)}
    (h : p ∈ l) : sizeOf p.2 < sizeOf l := by
  induction l with
  | nil => cases h
  | cons q rest ih =>
    rcases List.mem_cons.mp h with h' | h'
    · subst h'
      obtain ⟨nm, sub⟩ := p
      simp only [List.cons.sizeOf_spec, Prod.mk.sizeOf_spec]
      omega
    · have := ih h'
      simp only [List.cons.sizeOf_spec]
      omega

theorem sizeOf_sub_lt_frame {p : String × Frame} {fr : Frame}
    (h : p ∈ fr.subframes) : sizeOf p.2 < sizeOf fr := by
  cases fr with
  | mk fn ctx subs =>
    simp only [Frame.subframes] at h
    have := sizeOf_snd_lt_of_mem h
    simp only [Frame.mk.sizeOf_spec]
    omega

theorem countTerminals_terminal {fn : Fun} {ctx : List (String × Value)} :
    countTerminals (Frame.mk fn ctx []) = 1 := by
  rw [countTerminals]

theorem countTerminals_nonterminal {fn : Fun} {ctx : List (String × Value)}
    {s : String × Frame} {rest : List (String × Frame)} :
    countTerminals (Frame.mk fn ctx (s :: rest)) = countTerminalsList (s :: rest) := by
  rw [countTerminals]

theorem countTerminalsList_cons {nm : String} {sub : Frame}
    {rest : List (String × Frame)} :
    countTerminalsList ((nm, sub) :: rest) =
      countTerminals sub + countTerminalsList rest := by
  rw [countTerminalsList]

theorem unwrapSubs_length (ff : Frame) (l : List (String × Frame))
    (h : ∀ p ∈ l, (Frame.unwrap p.2).length = countTerminals p.2) :
    (unwrapSubs ff l).length = countTerminalsList l := by
  induction l with
  | nil => rw [unwrapSubs, countTerminalsList]; rfl
  | cons p rest ih =>
    obtain ⟨nm, sub⟩ := p
    rw [unwrapSubs_cons, countTerminalsList_cons, List.length_append,
      List.length_map]
    rw [h (nm, sub) (List.mem_cons_self _ _),
      ih (fun q hq => h q (List.mem_cons_of_mem _ hq))]

theorem unwrap_length (fr : Frame) : fr.unwrap.length = countTerminals fr := by
  have aux : ∀ (n : Nat) (fr : Frame), sizeOf fr ≤ n →
      fr.unwrap.length = countTerminals fr := by
    intro n
    induction n with
    | zero =>
      intro fr h
      exact absurd h (by have := frame_sizeOf_pos fr; omega)
    | succ n ih =>
      intro fr hle
      cases fr with
      | mk fn ctx subs =>
        cases subs with
        | nil =>
          rw [unwrap_terminal (g := Frame.mk fn ctx []) rfl,
            countTerminals_terminal]
          rfl
        | cons s rest =>
          rw [unwrap_nonterminal, countTerminals_nonterminal]
          refine unwrapSubs_length _ _ (fun p hp => ih p.2 ?_)
          have h1 : sizeOf p.2 < sizeOf (Frame.mk fn ctx (s :: rest)) :=
            sizeOf_sub_lt_frame (by simpa [Frame.subframes] using hp)
          omega
  exact aux (sizeOf fr) fr (le_refl _)

/-!
Concrete functions exercising the engine, mirroring the scenarios of the
repository's test suite: a plain base function, single- and dual-capture
closures, and two wrapping decorators built on the `functools.wraps` pattern
(the returned wrapper's code object is a constant of the decorator's code
object, and its closure captures the decorated function).
-/

def base_code : Code := Code.mk 100 "base_fun" [] []

def base_fun : Fun := Fun.mk 100 "base_fun" base_code []

def enclosed_code : Code := Code.mk 101 "enclosed_fun" [] []

def enclosed_fun : Fun := Fun.mk 101 "enclosed_fun" enclosed_code []

def alt_code : Code := Code.mk 102 "alt_enclosed_fun" [] []

def alt_enclosed_fun : Fun := Fun.mk 102 "alt_enclosed_fun" alt_code []

/-- Code object of a dual-capture closure over `alt_enclosed_fun` and
`enclosed_fun` (free variables in the host compiler's sorted order). -/
def dual_code : Code :=
  Code.mk 103 "dual_base_fun" ["alt_enclosed_fun", "enclosed_fun"] []

/-- Dual-capture closure: a function calling both `enclosed_fun` and
`alt_enclosed_fun`, so its closure holds both. -/
def dual_fun : Fun :=
  Fun.mk 103 "dual_base_fun" dual_code [.vfun alt_enclosed_fun, .vfun enclosed_fun]

/-- Single-capture closure over `enclosed_fun`. -/
def single_code : Code := Code.mk 104 "single_base_fun" ["enclosed_fun"] []

def single_fun : Fun := Fun.mk 104 "single_base_fun" single_code [.vfun enclosed_fun]

def wrapped1_code : Code := Code.mk 110 "wrapped1" ["decorated_fun"] []

def decorator1_code : Code := Code.mk 111 "decorator1" [] [some wrapped1_code]

def decorator1_fun : Fun := Fun.mk 111 "decorator1" decorator1_code []

def wrapped2_code : Code := Code.mk 112 "wrapped2" ["decorated_fun"] []

def decorator2_code : Code := Code.mk 113 "decorator2" [] [some wrapped2_code]

def decorator2_fun : Fun := Fun.mk 113 "decorator2" decorator2_code []

/-- Result of applying `decorator1` to `f`: a fresh function object whose
code object is `wrapped1`'s (shared with `decorator1`'s constants) and whose
closure captures `f`. -/
def apply1 (fid : Nat) (f : Fun) : Fun := Fun.mk fid "wrapped1" wrapped1_code [.vfun f]

/-- Result of applying `decorator2` to `f`. -/
def apply2 (fid : Nat) (f : Fun) : Fun := Fun.mk fid "wrapped2" wrapped2_code [.vfun f]

def decorated1 : Fun := apply1 120 base_fun

def decorated2 : Fun := apply2 121 base_fun

/-- The composition `decorator1(decorator2(base_fun))`. -/
def decorated12 : Fun := apply1 122 decorated2

/-- The composition `decorator2(decorator1(base_fun))`. -/
def decorated21 : Fun := apply2 123 decorated1

/-- A closure whose two cells hold the same function object: one callable
captured under two free-variable names. -/
def twice_code : Code := Code.mk 130 "twice_fun" ["g1", "g2"] []

def twice_fun : Fun := Fun.mk 130 "twice_fun" twice_code [.vfun some_fun, .vfun some_fun]

-- Evaluation sanity checks.

example : extract_code_objects decorated12 = [wrapped1_code, wrapped2_code, base_code] := by
  simp [extract_code_objects, extractClosure, decorated12, decorated2, apply1, apply2,
    base_fun, bfsCodes, codeConsts, Fun.code, Fun.closure, Code.co_consts,
    wrapped1_code, wrapped2_code, base_code]

example : extract_code_objects decorator1_fun = [decorator1_code, wrapped1_code] := by
  simp [extract_code_objects, extractClosure, decorator1_fun, bfsCodes, codeConsts,
    Fun.code, Fun.closure, Code.co_consts, decorator1_code, wrapped1_code]

example : buildFrame dual_fun =
    Frame.mk dual_fun
      [("alt_enclosed_fun", .vfun alt_enclosed_fun), ("enclosed_fun", .vfun enclosed_fun)]
      [("alt_enclosed_fun", buildFrame alt_enclosed_fun),
        ("enclosed_fun", buildFrame enclosed_fun)] := by
  rw [buildFrame_def]
  simp [getCells, dual_fun, Fun.closure, Fun.code, dual_code, Code.co_freevars,
    dictOf, upsert, buildSubframes]

theorem buildFrame_no_closure {f : Fun} (h : f.closure = []) :
    buildFrame f = Frame.mk f [] [] := by
  have hcells : getCells f = [] := by simp [getCells, h]
  rw [buildFrame_def, hcells]
  simp [dictOf, buildSubframes]

theorem unwrap_of_no_closure {f : Fun} (h : f.closure = []) :
    (buildFrame f).unwrap = [[buildFrame f]] := by
  have hsubs : (buildFrame f).subframes = [] := by
    rw [buildFrame_no_closure h]
    rfl
  rw [unwrap_terminal hsubs, buildFrame_fn]

theorem buildFrame_single_eval :
    buildFrame single_fun =
      Frame.mk single_fun [("enclosed_fun", .vfun enclosed_fun)]
        [("enclosed_fun", buildFrame enclosed_fun)] := by
  rw [buildFrame_def]
  simp [getCells, single_fun, Fun.closure, Fun.code, single_code,
    Code.co_freevars, dictOf, upsert, buildSubframes]

theorem buildFrame_dual_eval :
    buildFrame dual_fun =
      Frame.mk dual_fun
        [("alt_enclosed_fun", .vfun alt_enclosed_fun),
          ("enclosed_fun", .vfun enclosed_fun)]
        [("alt_enclosed_fun", buildFrame alt_enclosed_fun),
          ("enclosed_fun", buildFrame enclosed_fun)] := by
  rw [buildFrame_def]
  simp [getCells, dual_fun, Fun.closure, Fun.code, dual_code, Code.co_freevars,
    dictOf, upsert, buildSubframes]

theorem unwrap_single_eval :
    (buildFrame single_fun).unwrap =
      [[buildFrame single_fun, buildFrame enclosed_fun]] := by
  rw [buildFrame_single_eval, unwrap_nonterminal, unwrapSubs_cons,
    unwrap_of_no_closure (f := enclosed_fun) rfl]
  simp [unwrapSubs]

theorem unwrap_dual_eval :
    (buildFrame dual_fun).unwrap =
      [[buildFrame dual_fun, buildFrame alt_enclosed_fun],
        [buildFrame dual_fun, buildFrame enclosed_fun]] := by
  rw [buildFrame_dual_eval, unwrap_nonterminal, unwrapSubs_cons, unwrapSubs_cons,
    unwrap_of_no_closure (f := enclosed_fun) rfl,
    unwrap_of_no_closure (f := alt_enclosed_fun) rfl]
  simp [unwrapSubs]

/-- C6: a Frame with no subframes (in particular a Frame built over a callable
with no captures) unwraps to exactly one chain: the single-element list
holding a freshly rebuilt Frame over the same Callable. -/
theorem C6_terminal_singleton_chain :
    (∀ fr : Frame, fr.subframes = [] → fr.unwrap = [[buildFrame fr.fn]]) ∧
    (∀ f : Fun, f.closure = [] →
      (buildFrame f).subframes = [] ∧ (buildFrame f).unwrap = [[buildFrame f]]) := by
  constructor
  · intro fr h
    exact unwrap_terminal h
  · intro f h
    have hsubs : (buildFrame f).subframes = [] := by
      rw [buildFrame_no_closure h]
      rfl
    exact ⟨hsubs, unwrap_of_no_closure h⟩

/-- Witness for C6 at the capture-free `base_fun`. -/
theorem C6_terminal_singleton_chain_witness :
    (buildFrame base_fun).subframes = [] ∧
      (buildFrame base_fun).unwrap = [[buildFrame base_fun]] :=
  C6_terminal_singleton_chain.2 base_fun rfl

/-- C5: the number of chains yielded by `unwrap()` equals the number of
distinct terminal paths through the capture tree; the linear single-capture
closure yields exactly one chain, and the dual-capture closure yields exactly
two chains, one per captured callable, each prefixed by the root frame. -/
theorem C5_chain_count :
    (∀ fr : Frame, fr.unwrap.length = countTerminals fr) ∧
    (buildFrame single_fun).unwrap =
      [[buildFrame single_fun, buildFrame enclosed_fun]] ∧
    (buildFrame dual_fun).unwrap.length = 2 ∧
    [buildFrame dual_fun, buildFrame alt_enclosed_fun] ∈ (buildFrame dual_fun).unwrap ∧
    [buildFrame dual_fun, buildFrame enclosed_fun] ∈ (buildFrame dual_fun).unwrap := by
  refine ⟨unwrap_length, unwrap_single_eval, ?_, ?_, ?_⟩
  · rw [unwrap_dual_eval]
    rfl
  · rw [unwrap_dual_eval]
    exact List.mem_cons_self _ _
  · rw [unwrap_dual_eval]
    exact List.mem_cons_of_mem _ (List.mem_cons_self _ _)

theorem mem_zip_snd {l1 : List String} {l2 : List Value} {p : String × Value}
    (h : p ∈ l1.zip l2) : p.2 ∈ l2 := by
  induction l1 generalizing l2 with
  | nil => simp at h
  | cons a r1 ih =>
    cases l2 with
    | nil => simp at h
    | cons b r2 =>
      rw [List.zip_cons_cons] at h
      rcases List.mem_cons.mp h with h' | h'
      · subst h'
        exact List.mem_cons_self _ _
      · exact List.mem_cons_of_mem _ (ih h')

theorem sizeOf_vfun_lt_closure {g : Fun} {l : List Value} (h : Value.vfun g ∈ l) :
    sizeOf g < sizeOf l := by
  induction l with
  | nil => cases h
  | cons v rest ih =>
    rcases List.mem_cons.mp h with h' | h'
    · rw [← h']
      simp only [List.cons.sizeOf_spec, Value.vfun.sizeOf_spec]
      omega
    · have := ih h'
      simp only [List.cons.sizeOf_spec]
      omega

theorem sizeOf_lt_of_mem_getCells {f : Fun} {nm : String} {g : Fun}
    (h : (nm, Value.vfun g) ∈ getCells f) : sizeOf g < sizeOf f := by
  have hv : Value.vfun g ∈ f.closure := by
    cases hf : f.closure with
    | nil => simp [getCells, hf] at h
    | cons v rest =>
      have h' := h
      simp only [getCells, hf] at h'
      exact mem_zip_snd h'
  have h1 := sizeOf_vfun_lt_closure hv
  cases f with
  | mk i n c cl =>
    simp only [Fun.closure] at h1
    simp only [Fun.mk.sizeOf_spec]
    omega

theorem upsert_mem {α : Type} {m : List (String × α)} {k : String} {v : α}
    {p : String × α} (h : p ∈ upsert m k v) :
    p ∈ m ∨ (p.1 = k ∧ p.2 = v) := by
  induction m with
  | nil =>
    rw [upsert] at h
    rcases List.mem_singleton.mp h with h'
    right
    rw [h']
    exact ⟨rfl, rfl⟩
  | cons q rest ih =>
    obtain ⟨k', v'⟩ := q
    rw [upsert] at h
    by_cases hk : k' == k
    · rw [if_pos hk] at h
      rcases List.mem_cons.mp h with h' | h'
      · right
        rw [h']
        exact ⟨eq_of_beq hk, rfl⟩
      · exact Or.inl (List.mem_cons_of_mem _ h')
    · rw [if_neg hk] at h
      rcases List.mem_cons.mp h with h' | h'
      · exact Or.inl (h' ▸ List.mem_cons_self _ _)
      · rcases ih h' with h'' | h''
        · exact Or.inl (List.mem_cons_of_mem _ h'')
        · exact Or.inr h''

theorem buildSubframes_mem (cells : List (String × Value)) :
    ∀ {acc : List (String × Frame)} {p : String × Frame},
      p ∈ buildSubframes acc cells →
      p ∈ acc ∨ ∃ g, p.2 = buildFrame g ∧ (p.1, Value.vfun g) ∈ cells := by
  induction cells with
  | nil =>
    intro acc p h
    rw [buildSubframes] at h
    exact Or.inl h
  | cons q rest ih =>
    intro acc p h
    obtain ⟨nm, v⟩ := q
    cases v with
    | vfun g =>
      rw [buildSubframes] at h
      rcases ih h with h' | h'
      · rcases upsert_mem h' with h'' | h''
        · exact Or.inl h''
        · refine Or.inr ⟨g, h''.2, ?_⟩
          rw [h''.1]
          exact List.mem_cons_self _ _
      · obtain ⟨g', hg1, hg2⟩ := h'
        exact Or.inr ⟨g', hg1, List.mem_cons_of_mem _ hg2⟩
    | vdata t =>
      rw [buildSubframes] at h
      rcases ih h with h' | h'
      · exact Or.inl h'
      · obtain ⟨g', hg1, hg2⟩ := h'
        exact Or.inr ⟨g', hg1, List.mem_cons_of_mem _ hg2⟩

theorem unwrap_nonempty_subframes {fr : Frame} (h : fr.subframes ≠ []) :
    fr.unwrap = unwrapSubs fr fr.subframes := by
  cases fr with
  | mk fn ctx subs =>
    cases subs with
    | nil => exact absurd rfl h
    | cons s rest => exact unwrap_nonterminal

/-- Capture-path relation between consecutive chain frames: the later frame's
function is the value of one of the earlier frame's callable-valued capture
bindings. -/
def capturesRel (a b : Frame) : Prop :=
  ∃ nm, (nm, Value.vfun b.fn) ∈ getCells a.fn

/-- C10: every chain yielded by `unwrap()` on a Frame built over a callable
is non-empty, starts at a Frame over that same callable, and each adjacent
pair of frames is linked by a callable-valued capture binding — chains trace
genuine capture paths from root to terminal. -/
theorem C10_chains_trace_captures (f : Fun) (chain : List Frame)
    (h : chain ∈ (buildFrame f).unwrap) :
    chain ≠ [] ∧ (∀ hd, chain.head? = some hd → hd.fn = f) ∧
      List.Chain' capturesRel chain := by
  have aux : ∀ (n : Nat) (f : Fun), sizeOf f ≤ n →
      ∀ chain ∈ (buildFrame f).unwrap,
        (∃ tail, chain = buildFrame f :: tail) ∧ List.Chain' capturesRel chain := by
    intro n
    induction n with
    | zero =>
      intro f hle
      exact absurd hle (by have := fun_sizeOf_pos f; omega)
    | succ n ih =>
      intro f hle chain hchain
      by_cases hsubs : (buildFrame f).subframes = []
      · rw [unwrap_terminal hsubs, buildFrame_fn] at hchain
        rcases List.mem_singleton.mp hchain with h'
        subst h'
        exact ⟨⟨[], rfl⟩, List.chain'_singleton _⟩
      · rw [unwrap_nonempty_subframes hsubs] at hchain
        obtain ⟨nm, sub, subchain, hmem, hsc, heq⟩ := unwrapSubs_mem hchain
        have hmem' := hmem
        rw [buildFrame_subframes] at hmem'
        rcases buildSubframes_mem (getCells f) hmem' with habs | hex
        · cases habs
        · obtain ⟨g, hg1, hg2⟩ := hex
          simp only at hg1 hg2
          have hsz : sizeOf g < sizeOf f := sizeOf_lt_of_mem_getCells hg2
          rw [hg1] at hsc
          obtain ⟨⟨tail, htail⟩, hch⟩ := ih g (by omega) subchain hsc
          subst heq
          refine ⟨⟨subchain, rfl⟩, ?_⟩
          rw [htail]
          refine List.chain'_cons.mpr ⟨?_, by rw [← htail]; exact hch⟩
          refine ⟨nm, ?_⟩
          rw [buildFrame_fn, buildFrame_fn]
          exact hg2
  obtain ⟨⟨tail, htail⟩, hch⟩ := aux (sizeOf f) f (le_refl _) chain h
  refine ⟨by rw [htail]; exact List.cons_ne_nil _ _, ?_, hch⟩
  intro hd hhd
  rw [htail] at hhd
  simp only [List.head?_cons, Option.some.injEq] at hhd
  rw [← hhd, buildFrame_fn]

/-- Witness for C10 on the single-capture closure's unique chain. -/
theorem C10_chains_trace_captures_witness :
    ([buildFrame single_fun, buildFrame enclosed_fun] : List Frame) ≠ [] ∧
    (∀ hd, ([buildFrame single_fun, buildFrame enclosed_fun] : List Frame).head? =
      some hd → hd.fn = single_fun) ∧
    List.Chain' capturesRel [buildFrame single_fun, buildFrame enclosed_fun] :=
  C10_chains_trace_captures single_fun _
    (by rw [unwrap_single_eval]; exact List.mem_singleton.mpr rfl)

theorem upsert_fresh {α : Type} {m : List (String × α)} {k : String} {v : α}
    (h : k ∉ m.map Prod.fst) : upsert m k v = m ++ [(k, v)] := by
  induction m with
  | nil => rfl
  | cons q rest ih =>
    obtain ⟨k', v'⟩ := q
    have hne : ¬ ((k' == k) = true) := by
      simp only [List.map_cons, List.mem_cons] at h
      simp only [beq_iff_eq]
      intro hkk
      exact h (Or.inl hkk.symm)
    rw [upsert, if_neg hne, List.cons_append]
    rw [ih (by simp only [List.map_cons, List.mem_cons] at h; exact fun hm => h (Or.inr hm))]

theorem foldl_upsert_fresh {α : Type} (l : List (String × α)) :
    ∀ acc : List (String × α), (l.map Prod.fst).Nodup →
      (∀ k ∈ l.map Prod.fst, k ∉ acc.map Prod.fst) →
      l.foldl (fun m p => upsert m p.1 p.2) acc = acc ++ l := by
  induction l with
  | nil =>
    intro acc _ _
    simp
  | cons p rest ih =>
    intro acc hnodup hdisj
    obtain ⟨k, v⟩ := p
    rw [List.foldl_cons]
    have hk : k ∉ acc.map Prod.fst := hdisj k (by simp)
    rw [show upsert acc (k, v).1 (k, v).2 = acc ++ [(k, v)] from upsert_fresh hk]
    rw [List.map_cons, List.nodup_cons] at hnodup
    rw [ih (acc ++ [(k, v)]) hnodup.2 ?_]
    · simp
    · intro k' hk'
      rw [List.map_append, List.mem_append]
      rintro (hc | hc)
      · exact hdisj k' (by simp [hk']) hc
      · simp only [List.map_cons, List.map_nil, List.mem_singleton] at hc
        rw [hc] at hk'
        exact hnodup.1 hk'

theorem dictOf_of_nodup {α : Type} {l : List (String × α)}
    (h : (l.map Prod.fst).Nodup) : dictOf l = l := by
  rw [dictOf, foldl_upsert_fresh l [] h (by simp)]
  rfl

theorem map_fst_zip_of_len {l1 : List String} {l2 : List Value}
    (h : l1.length ≤ l2.length) : (l1.zip l2).map Prod.fst = l1 := by
  induction l1 generalizing l2 with
  | nil => simp
  | cons a r1 ih =>
    cases l2 with
    | nil => simp at h
    | cons b r2 =>
      rw [List.zip_cons_cons, List.map_cons, ih (by simpa using h)]

theorem subframes_keys_sub_cells (f : Fun) :
    ∀ k ∈ (buildFrame f).subframes.map Prod.fst, k ∈ (getCells f).map Prod.fst := by
  intro k hk
  obtain ⟨p, hp, hpk⟩ := List.mem_map.mp hk
  rw [buildFrame_subframes] at hp
  rcases buildSubframes_mem _ hp with h | ⟨g, _, hg⟩
  · cases h
  · exact hpk ▸ List.mem_map.mpr ⟨(p.1, Value.vfun g), hg, rfl⟩

/-- C1 counterexample: on the single-capture closure, the capture name
appears among both the context keys and the subframes keys — `__init__`
stores every cell value in `context`, callable ones included, so the two key
sets are not disjoint. -/
theorem C1_counterexample :
    "enclosed_fun" ∈ (buildFrame single_fun).context.map Prod.fst ∧
    "enclosed_fun" ∈ (buildFrame single_fun).subframes.map Prod.fst := by
  rw [buildFrame_single_eval]
  exact ⟨by simp [Frame.context], by simp [Frame.subframes]⟩

/-- C1 (amended): the context keys alone already equal the body's
free-variable names in order (context holds every capture binding, callable
ones included), and the subframes keys are a subset of the context keys; so
the union of the two key sets equals the free-variable names, but the sets
are disjoint only when there are no callable captures. -/
theorem C1_amended_key_sets (f : Fun)
    (hlen : f.closure.length = f.code.co_freevars.length)
    (hnodup : f.code.co_freevars.Nodup) :
    (buildFrame f).context.map Prod.fst = f.code.co_freevars ∧
    ∀ k ∈ (buildFrame f).subframes.map Prod.fst,
      k ∈ (buildFrame f).context.map Prod.fst := by
  have hkeys : (getCells f).map Prod.fst = f.code.co_freevars := by
    cases hf : f.closure with
    | nil =>
      rw [hf] at hlen
      simp only [List.length_nil] at hlen
      rw [getCells, hf]
      simp [(List.length_eq_zero.mp hlen.symm)]
    | cons v rest =>
      simp only [getCells, hf]
      rw [← hf, map_fst_zip_of_len (by omega)]
  have hctx : (buildFrame f).context.map Prod.fst = f.code.co_freevars := by
    rw [buildFrame_context, dictOf_of_nodup (by rw [hkeys]; exact hnodup), hkeys]
  refine ⟨hctx, fun k hk => ?_⟩
  rw [hctx, ← hkeys]
  exact subframes_keys_sub_cells f k hk

/-- Witness for the amended C1 at the single-capture closure. -/
theorem C1_amended_key_sets_witness :
    (buildFrame single_fun).context.map Prod.fst = single_fun.code.co_freevars ∧
    ∀ k ∈ (buildFrame single_fun).subframes.map Prod.fst,
      k ∈ (buildFrame single_fun).context.map Prod.fst :=
  C1_amended_key_sets single_fun rfl (by simp [single_fun, single_code, Fun.code,
    Code.co_freevars])

/-!
Frame equality.  The `Frame` class defines neither `__eq__` nor `__cmp__`,
so `==` between two Frame objects falls back to the host's default object
identity; every `Frame(...)` construction allocates a fresh object.  The
embedding pairs the derived frame value with an allocation id and compares
allocation ids, exactly as the class's actual equality does.
-/

structure FrameObj where
  oid : Nat
  val : Frame

/-- Frame equality as the class defines it: default object identity. -/
def framePyEq (a b : FrameObj) : Bool := a.oid == b.oid

/-- One `Frame(fun)` construction call under allocation id `oid`. -/
def newFrameObj (oid : Nat) (f : Fun) : FrameObj := ⟨oid, buildFrame f⟩

/-- C2 (code bug): two Frames built from the same callable reference compare
unequal under the class's actual equality — object identity, since `Frame`
defines no `__eq__` — even though the two constructions derive identical
structure from the same callable; the repository's own tests assert
`Frame(f) == Frame(f)` (test_inspector.py, e.g. `test_simple_function`). -/
theorem C2_identity_eq_code_bug :
    framePyEq (newFrameObj 0 base_fun) (newFrameObj 1 base_fun) = false ∧
    (newFrameObj 0 base_fun).val = (newFrameObj 1 base_fun).val :=
  ⟨rfl, rfl⟩

theorem extract_twice_eval :
    extract_code_objects twice_fun =
      [twice_code, leafCode 1 "some_fun", leafCode 1 "some_fun"] := by
  simp [extract_code_objects, extractClosure, twice_fun, some_fun, bfsCodes,
    codeConsts, Fun.code, Fun.closure, Code.co_consts, twice_code, leafCode]

theorem taggedExtract_twice_eval :
    taggedExtract [twice_fun] =
      [(twice_code, twice_fun), (leafCode 1 "some_fun", twice_fun),
        (leafCode 1 "some_fun", twice_fun)] := by
  rw [taggedExtract, List.flatMap_cons, List.flatMap_nil, extract_twice_eval]
  rfl

theorem extract_base_eval : extract_code_objects base_fun = [base_code] := by
  simp [extract_code_objects, extractClosure, base_fun, bfsCodes, codeConsts,
    Fun.code, Fun.closure, Code.co_consts, base_code]

theorem taggedExtract_base_eval :
    taggedExtract [base_fun] = [(base_code, base_fun)] := by
  rw [taggedExtract, List.flatMap_cons, List.flatMap_nil, extract_base_eval]
  rfl

/-- C3 counterexample: the candidate list `[twice_fun]` reaches the code
object of `some_fun` from exactly one candidate (twice, through the two cells
of one closure), yet `map_code_objects` leaves it out of the origin map and
puts it in the ambiguous set — the builder demotes a descriptor on any second
sighting, not only on a sighting under a different callable. -/
theorem C3_counterexample :
    lookupCode (map_code_objects [twice_fun]).1 (leafCode 1 "some_fun") = none ∧
    memCode (map_code_objects [twice_fun]).2 (leafCode 1 "some_fun") = true := by
  have h := mco_multi [twice_fun] (leafCode 1 "some_fun") (by
    rw [taggedExtract_twice_eval]
    simp [countCode, List.filter, Code.cid, twice_code, leafCode])
  exact ⟨h.1, h.2⟩

/-- C3 (amended): a descriptor is moved from the origin map to the ambiguous
set whenever extraction yields it a second time — whether under a different
candidate or under the same one — and a descriptor yielded exactly once over
the whole candidate list ends up mapped to the candidate that yielded it. -/
theorem C3_amended_second_sighting (functions : List Fun) (c : Code) :
    (countCode (taggedExtract functions) c = 1 →
      ∀ p ∈ taggedExtract functions, p.1.cid = c.cid →
        lookupCode (map_code_objects functions).1 c = some p.2 ∧
        memCode (map_code_objects functions).2 c = false) ∧
    (2 ≤ countCode (taggedExtract functions) c →
      lookupCode (map_code_objects functions).1 c = none ∧
      memCode (map_code_objects functions).2 c = true) := by
  constructor
  · intro h p hp hpc
    exact mco_unique functions c h hp hpc
  · intro h
    exact mco_multi functions c h

/-- Witness for the amended C3: a uniquely yielded descriptor stays mapped
(`[base_fun]`), a twice-yielded one is demoted (`[twice_fun]`). -/
theorem C3_amended_second_sighting_witness :
    (lookupCode (map_code_objects [base_fun]).1 base_code = some base_fun ∧
      memCode (map_code_objects [base_fun]).2 base_code = false) ∧
    (lookupCode (map_code_objects [twice_fun]).1 (leafCode 1 "some_fun") = none ∧
      memCode (map_code_objects [twice_fun]).2 (leafCode 1 "some_fun") = true) := by
  constructor
  · refine (C3_amended_second_sighting [base_fun] base_code).1 ?_ (base_code, base_fun) ?_ rfl
    · rw [taggedExtract_base_eval]
      simp [countCode, List.filter, Code.cid, base_code]
    · rw [taggedExtract_base_eval]
      exact List.mem_singleton.mpr rfl
  · refine (C3_amended_second_sighting [twice_fun] (leafCode 1 "some_fun")).2 ?_
    rw [taggedExtract_twice_eval]
    simp [countCode, List.filter, Code.cid, twice_code, leafCode]

theorem count_pos_of_memCode_flatMap {functions : List Fun} {c : Code}
    (h : memCode (functions.flatMap extract_code_objects) c = true) :
    1 ≤ countCode (taggedExtract functions) c := by
  rw [memCode, List.any_eq_true] at h
  obtain ⟨c', hc', hbeq⟩ := h
  rw [List.mem_flatMap] at hc'
  obtain ⟨fn, hfn, hcf⟩ := hc'
  have hmem : (c', fn) ∈ taggedExtract functions := by
    rw [taggedExtract, List.mem_flatMap]
    exact ⟨fn, hfn, List.mem_map.mpr ⟨c', hcf, rfl⟩⟩
  exact countCode_pos_of_mem hmem (by simpa using hbeq)

/-- C9: every code object yielded by extraction over any candidate ends up in
exactly one of the origin map and the ambiguous set — never both, never
neither. -/
theorem C9_partition (functions : List Fun) (c : Code)
    (h : memCode (functions.flatMap extract_code_objects) c = true) :
    ((lookupCode (map_code_objects functions).1 c).isSome = true ∧
      memCode (map_code_objects functions).2 c = false) ∨
    ((lookupCode (map_code_objects functions).1 c).isSome = false ∧
      memCode (map_code_objects functions).2 c = true) := by
  have hcount := count_pos_of_memCode_flatMap h
  by_cases h1 : countCode (taggedExtract functions) c = 1
  · obtain ⟨l₁, p, l₂, heq, hpc, hc₁, hc₂⟩ := countCode_pos_split hcount
    have hp : p ∈ taggedExtract functions := by
      rw [heq]
      exact List.mem_append.mpr (Or.inr (List.mem_cons_self _ _))
    have := mco_unique functions c h1 hp hpc
    left
    rw [this.1]
    exact ⟨rfl, this.2⟩
  · have := mco_multi functions c (by omega)
    right
    rw [this.1]
    exact ⟨rfl, this.2⟩

/-- Witness for C9 at the twice-captured `some_fun` code object. -/
theorem C9_partition_witness :
    ((lookupCode (map_code_objects [twice_fun]).1 (leafCode 1 "some_fun")).isSome = true ∧
      memCode (map_code_objects [twice_fun]).2 (leafCode 1 "some_fun") = false) ∨
    ((lookupCode (map_code_objects [twice_fun]).1 (leafCode 1 "some_fun")).isSome = false ∧
      memCode (map_code_objects [twice_fun]).2 (leafCode 1 "some_fun") = true) :=
  C9_partition [twice_fun] (leafCode 1 "some_fun") (by
    rw [List.flatMap_cons, List.flatMap_nil, extract_twice_eval]
    simp [memCode, Code.cid, leafCode])

/-- Specification of one chain position's annotation: `none` exactly when no
reachable code object is an origin-map key, otherwise the map's value at the
first reachable key (every earlier extracted code object missing from the
map). -/
def matchSpec (m : List (Code × Fun)) (codes : List Code) : Option Fun → Prop
  | none => ∀ c ∈ codes, lookupCode m c = none
  | some d => ∃ l₁ c l₂, codes = l₁ ++ c :: l₂ ∧
      (∀ c' ∈ l₁, lookupCode m c' = none) ∧ lookupCode m c = some d

theorem lookupFirst_matchSpec (m : List (Code × Fun)) (codes : List Code) :
    matchSpec m codes (lookupFirst m codes) := by
  induction codes with
  | nil =>
    intro c hc
    cases hc
  | cons c rest ih =>
    rw [lookupFirst]
    cases hl : lookupCode m c with
    | some d => exact ⟨[], c, rest, rfl, by simp, hl⟩
    | none =>
      cases hr : lookupFirst m rest with
      | none =>
        rw [hr] at ih
        intro c' hc'
        rcases List.mem_cons.mp hc' with h' | h'
        · rw [h']
          exact hl
        · exact ih c' h'
      | some d =>
        rw [hr] at ih
        obtain ⟨l₁, c₀, l₂, heq, hl₁, hc₀⟩ := ih
        refine ⟨c :: l₁, c₀, l₂, by rw [heq, List.cons_append], ?_, hc₀⟩
        intro c' hc'
        rcases List.mem_cons.mp hc' with h' | h'
        · rw [h']
          exact hl
        · exact hl₁ c' h'

theorem lookupFirst_empty (codes : List Code) : lookupFirst [] codes = none := by
  induction codes with
  | nil => rfl
  | cons c rest ih =>
    rw [lookupFirst]
    exact ih

/-- C7: in `unwrap_decorators`, every frame of every yielded chain is paired
with the origin map's match for the first reachable code object present in
the map, or with `none` when no reachable code object is a map key; ambiguous
descriptors are never map keys, so a frame whose reachable descriptors hit
only ambiguous entries is annotated `none`; and with an empty decorator list
every chain position is annotated `none`. -/
theorem C7_decorator_matching (fr : Frame) (decorators : List Fun) :
    (∀ chain ∈ fr.unwrap_decorators decorators, ∀ p ∈ chain,
      matchSpec (map_code_objects decorators).1
        (extract_code_objects p.1.fn) p.2) ∧
    (∀ c : Code, memCode (map_code_objects decorators).2 c = true →
      lookupCode (map_code_objects decorators).1 c = none) ∧
    (decorators = [] → ∀ chain ∈ fr.unwrap_decorators decorators,
      ∀ p ∈ chain, p.2 = none) := by
  refine ⟨?_, ?_, ?_⟩
  · intro chain hchain p hp
    simp only [Frame.unwrap_decorators, List.mem_map] at hchain
    obtain ⟨uchain, hu, hueq⟩ := hchain
    rw [← hueq] at hp
    obtain ⟨frame, hframe, hpeq⟩ := List.mem_map.mp hp
    rw [← hpeq]
    exact lookupFirst_matchSpec _ _
  · intro c hc
    have hinv := invMap_map_code_objects decorators c
    cases hl : lookupCode (map_code_objects decorators).1 c with
    | none => rfl
    | some d =>
      have hfalse := hinv (by rw [hl]; rfl)
      rw [hc] at hfalse
      cases hfalse
  · intro hdec chain hchain p hp
    subst hdec
    simp only [Frame.unwrap_decorators, List.mem_map] at hchain
    obtain ⟨uchain, hu, hueq⟩ := hchain
    rw [← hueq] at hp
    obtain ⟨frame, hframe, hpeq⟩ := List.mem_map.mp hp
    rw [← hpeq]
    exact lookupFirst_empty _

theorem extract_decorator1_eval :
    extract_code_objects decorator1_fun = [decorator1_code, wrapped1_code] := by
  simp [extract_code_objects, extractClosure, decorator1_fun, bfsCodes, codeConsts,
    Fun.code, Fun.closure, Code.co_consts, decorator1_code, wrapped1_code]

theorem extract_decorated1_eval :
    extract_code_objects decorated1 = [wrapped1_code, base_code] := by
  simp [extract_code_objects, extractClosure, decorated1, apply1, base_fun,
    bfsCodes, codeConsts, Fun.code, Fun.closure, Code.co_consts, wrapped1_code,
    base_code]

theorem extract_decorated2_eval :
    extract_code_objects decorated2 = [wrapped2_code, base_code] := by
  simp [extract_code_objects, extractClosure, decorated2, apply2, base_fun,
    bfsCodes, codeConsts, Fun.code, Fun.closure, Code.co_consts, wrapped2_code,
    base_code]

theorem extract_decorated12_eval :
    extract_code_objects decorated12 =
      [wrapped1_code, wrapped2_code, base_code] := by
  simp [extract_code_objects, extractClosure, decorated12, decorated2, apply1,
    apply2, base_fun, bfsCodes, codeConsts, Fun.code, Fun.closure,
    Code.co_consts, wrapped1_code, wrapped2_code, base_code]

theorem extract_decorated21_eval :
    extract_code_objects decorated21 =
      [wrapped2_code, wrapped1_code, base_code] := by
  simp [extract_code_objects, extractClosure, decorated21, decorated1, apply1,
    apply2, base_fun, bfsCodes, codeConsts, Fun.code, Fun.closure,
    Code.co_consts, wrapped1_code, wrapped2_code, base_code]

theorem mco_decorator1_eval :
    map_code_objects [decorator1_fun] =
      ([(decorator1_code, decorator1_fun), (wrapped1_code, decorator1_fun)], []) := by
  rw [map_code_objects, List.foldl_cons, List.foldl_nil, extract_decorator1_eval]
  simp [mapStep, memCode, lookupCode, removeCode, Code.cid, decorator1_code,
    wrapped1_code]

theorem buildFrame_apply1_eval (i : Nat) (g : Fun) :
    buildFrame (apply1 i g) =
      Frame.mk (apply1 i g) [("decorated_fun", .vfun g)]
        [("decorated_fun", buildFrame g)] := by
  rw [buildFrame_def]
  simp [getCells, apply1, Fun.closure, Fun.code, wrapped1_code, Code.co_freevars,
    dictOf, upsert, buildSubframes]

theorem buildFrame_apply2_eval (i : Nat) (g : Fun) :
    buildFrame (apply2 i g) =
      Frame.mk (apply2 i g) [("decorated_fun", .vfun g)]
        [("decorated_fun", buildFrame g)] := by
  rw [buildFrame_def]
  simp [getCells, apply2, Fun.closure, Fun.code, wrapped2_code, Code.co_freevars,
    dictOf, upsert, buildSubframes]

theorem unwrap_decorated1_eval :
    (buildFrame decorated1).unwrap = [[buildFrame decorated1, buildFrame base_fun]] := by
  rw [show (decorated1 : Fun) = apply1 120 base_fun from rfl, buildFrame_apply1_eval,
    unwrap_nonterminal, unwrapSubs_cons, unwrap_of_no_closure (f := base_fun) rfl]
  simp [unwrapSubs]

theorem unwrap_decorators_d1_eval :
    (buildFrame decorated1).unwrap_decorators [decorator1_fun] =
      [[(buildFrame decorated1, some decorator1_fun),
        (buildFrame base_fun, none)]] := by
  rw [Frame.unwrap_decorators, unwrap_decorated1_eval]
  simp only [List.map_cons, List.map_nil, mco_decorator1_eval, buildFrame_fn,
    extract_decorated1_eval, extract_base_eval]
  simp [lookupFirst, lookupCode, Code.cid, decorator1_code, wrapped1_code,
    base_code]

/-- Witness for C7: the first chain position of `decorator1(base_fun)` under
the candidate list `[decorator1]` satisfies the first-match specification
with annotation `decorator1`. -/
theorem C7_decorator_matching_witness :
    matchSpec (map_code_objects [decorator1_fun]).1
      (extract_code_objects (buildFrame decorated1).fn) (some decorator1_fun) :=
  (C7_decorator_matching (buildFrame decorated1) [decorator1_fun]).1
    [(buildFrame decorated1, some decorator1_fun), (buildFrame base_fun, none)]
    (by rw [unwrap_decorators_d1_eval]; exact List.mem_singleton.mpr rfl)
    (buildFrame decorated1, some decorator1_fun)
    (List.mem_cons_self _ _)

theorem frame_subs_weight_lt (fr : Frame) :
    (((fr.subframes.map Prod.snd).map sizeOf).sum : Nat) < sizeOf fr := by
  cases fr with
  | mk f c s =>
    have h := subs_weight_lt s
    have h2 : (s.map Prod.snd).map sizeOf = s.map (fun p => sizeOf p.2) := by
      rw [List.map_map]
      rfl
    simp only [Frame.subframes, h2, Frame.mk.sizeOf_spec]
    omega

theorem frameQueueBFS_nil (codes : List Code) : frameQueueBFS codes [] = [] := by
  simp only [frameQueueBFS]

theorem frameQueueBFS_cons (codes : List Code) (fr : Frame) (rest : List Frame) :
    frameQueueBFS codes (fr :: rest) =
      (match find_first_code codes (extract_code_objects fr.fn) with
       | some c => [(fr, c)]
       | none => []) ++
        frameQueueBFS codes (rest ++ fr.subframes.map Prod.snd) := by
  simp only [frameQueueBFS]

theorem bfsFrames_nil : bfsFrames [] = [] := by
  simp only [bfsFrames]

theorem bfsFrames_cons (fr : Frame) (rest : List Frame) :
    bfsFrames (fr :: rest) = fr :: bfsFrames (rest ++ fr.subframes.map Prod.snd) := by
  simp only [bfsFrames]

theorem frameQueueBFS_eq_filterMap (codes : List Code) (l : List Frame) :
    frameQueueBFS codes l =
      (bfsFrames l).filterMap (fun g =>
        (find_first_code codes (extract_code_objects g.fn)).map (fun c => (g, c))) := by
  have aux : ∀ (n : Nat) (l : List Frame), ((l.map sizeOf).sum : Nat) ≤ n →
      frameQueueBFS codes l = (bfsFrames l).filterMap (fun g =>
        (find_first_code codes (extract_code_objects g.fn)).map (fun c => (g, c))) := by
    intro n
    induction n with
    | zero =>
      intro l hle
      cases l with
      | nil => rw [frameQueueBFS_nil, bfsFrames_nil, List.filterMap_nil]
      | cons fr rest =>
        exfalso
        have := frame_sizeOf_pos fr
        simp only [List.map_cons, List.sum_cons] at hle
        omega
    | succ n ih =>
      intro l hle
      cases l with
      | nil => rw [frameQueueBFS_nil, bfsFrames_nil, List.filterMap_nil]
      | cons fr rest =>
        rw [frameQueueBFS_cons, bfsFrames_cons, List.filterMap_cons]
        have hq : (((rest ++ fr.subframes.map Prod.snd).map sizeOf).sum : Nat) ≤ n := by
          have h1 := frame_subs_weight_lt fr
          simp only [List.map_cons, List.sum_cons] at hle
          simp only [List.map_append, List.sum_append]
          omega
        rw [ih _ hq]
        cases hf : find_first_code codes (extract_code_objects fr.fn) with
        | none => simp
        | some c => simp
  exact aux ((l.map sizeOf).sum) l (le_refl _)

theorem subframes_decorated12 :
    (buildFrame decorated12).subframes = [("decorated_fun", buildFrame decorated2)] := by
  rw [show (decorated12 : Fun) = apply1 122 decorated2 from rfl, buildFrame_apply1_eval]
  rfl

theorem subframes_decorated21 :
    (buildFrame decorated21).subframes = [("decorated_fun", buildFrame decorated1)] := by
  rw [show (decorated21 : Fun) = apply2 123 decorated1 from rfl, buildFrame_apply2_eval]
  rfl

theorem subframes_decorated1 :
    (buildFrame decorated1).subframes = [("decorated_fun", buildFrame base_fun)] := by
  rw [show (decorated1 : Fun) = apply1 120 base_fun from rfl, buildFrame_apply1_eval]
  rfl

theorem subframes_decorated2 :
    (buildFrame decorated2).subframes = [("decorated_fun", buildFrame base_fun)] := by
  rw [show (decorated2 : Fun) = apply2 121 base_fun from rfl, buildFrame_apply2_eval]
  rfl

theorem subframes_base : (buildFrame base_fun).subframes = [] := by
  rw [buildFrame_no_closure (f := base_fun) rfl]
  rfl

theorem fqb_d1codes_base :
    frameQueueBFS [decorator1_code, wrapped1_code] [buildFrame base_fun] = [] := by
  rw [frameQueueBFS_cons, buildFrame_fn, extract_base_eval, subframes_base]
  rw [show find_first_code [decorator1_code, wrapped1_code] [base_code] = none from by
    simp [find_first_code, memCode, Code.cid, decorator1_code, wrapped1_code, base_code]]
  simp [frameQueueBFS_nil]

theorem fqb_d1codes_decorated2 :
    frameQueueBFS [decorator1_code, wrapped1_code] [buildFrame decorated2] = [] := by
  rw [frameQueueBFS_cons, buildFrame_fn, extract_decorated2_eval, subframes_decorated2]
  rw [show find_first_code [decorator1_code, wrapped1_code] [wrapped2_code, base_code] =
      none from by
    simp [find_first_code, memCode, Code.cid, decorator1_code, wrapped1_code,
      wrapped2_code, base_code]]
  simpa using fqb_d1codes_base

theorem fqb_d1codes_decorated1 :
    frameQueueBFS [decorator1_code, wrapped1_code] [buildFrame decorated1] =
      [(buildFrame decorated1, wrapped1_code)] := by
  rw [frameQueueBFS_cons, buildFrame_fn, extract_decorated1_eval, subframes_decorated1]
  rw [show find_first_code [decorator1_code, wrapped1_code] [wrapped1_code, base_code] =
      some wrapped1_code from by
    simp [find_first_code, memCode, Code.cid, decorator1_code, wrapped1_code,
      base_code]]
  simpa using fqb_d1codes_base

theorem find_decorator_d12_eval :
    (buildFrame decorated12).find_decorator decorator1_fun =
      [(buildFrame decorated12, wrapped1_code)] := by
  rw [Frame.find_decorator, extract_decorator1_eval, frameQueueBFS_cons,
    buildFrame_fn, extract_decorated12_eval, subframes_decorated12]
  rw [show find_first_code [decorator1_code, wrapped1_code]
      [wrapped1_code, wrapped2_code, base_code] = some wrapped1_code from by
    simp [find_first_code, memCode, Code.cid, decorator1_code, wrapped1_code,
      wrapped2_code, base_code]]
  simpa using fqb_d1codes_decorated2

theorem find_decorator_d21_eval :
    (buildFrame decorated21).find_decorator decorator1_fun =
      [(buildFrame decorated21, wrapped1_code),
        (buildFrame decorated1, wrapped1_code)] := by
  rw [Frame.find_decorator, extract_decorator1_eval, frameQueueBFS_cons,
    buildFrame_fn, extract_decorated21_eval, subframes_decorated21]
  rw [show find_first_code [decorator1_code, wrapped1_code]
      [wrapped2_code, wrapped1_code, base_code] = some wrapped1_code from by
    simp [find_first_code, memCode, Code.cid, decorator1_code, wrapped1_code,
      wrapped2_code, base_code]]
  simpa using fqb_d1codes_decorated1

/-- C8: `find_decorator` is a breadth-first traversal yielding, per visited
frame, at most one pair — the frame with the first reachable code object
belonging to the decorator's set — while still enqueuing every subframe, and
it returns all matches across the subtree: exactly one match (the outer
frame) for `decorator1` on `decorator1(decorator2(base_fun))`, and exactly
two matches (outer and inner frame) for `decorator1` on
`decorator2(decorator1(base_fun))`. -/
theorem C8_find_decorator_bfs :
    (∀ (fr : Frame) (decorator : Fun),
      fr.find_decorator decorator =
        (bfsFrames [fr]).filterMap (fun g =>
          (find_first_code (extract_code_objects decorator)
            (extract_code_objects g.fn)).map (fun c => (g, c)))) ∧
    (buildFrame decorated12).find_decorator decorator1_fun =
      [(buildFrame decorated12, wrapped1_code)] ∧
    (buildFrame decorated21).find_decorator decorator1_fun =
      [(buildFrame decorated21, wrapped1_code),
        (buildFrame decorated1, wrapped1_code)] := by
  refine ⟨?_, find_decorator_d12_eval, find_decorator_d21_eval⟩
  intro fr decorator
  rw [Frame.find_decorator]
  exact frameQueueBFS_eq_filterMap _ _

/-!
Bounded extraction.  The source module ships only the unbounded demo
extractor; the specification requires, for production use, a mode that is
explicitly bounded by a visited set of Callable identities and that raises a
distinct cyclic-capture condition on a cycle.  Following the specification's
design notes, capture graphs are modelled as an arena of callables indexed by
integer handle, with capture bindings storing handles, so that cyclic capture
graphs are expressible.
-/

/-- Modelled from the spec: an arena callable — its code object plus the
handles of its captured callables.  The bounded extraction mode itself is
absent from the source (which has only the unbounded demo extractor); this
and the two definitions below follow §4.1, §7 and §9 of the specification. -/
structure ArenaFun where
  code : Code
  captured : List Nat

/-- Modelled from the spec: the distinct "cyclic capture detected" condition
a bounded implementation must raise instead of exhausting the call stack. -/
inductive ExtractError where
  | cyclicCapture

mutual
/-- Modelled from the spec: bounded extraction over an arena.  The current
traversal path is a visited set of callable handles; revisiting a handle on
the path (or exceeding the arena's size, impossible on well-formed paths)
raises the cyclic-capture condition; otherwise the callable's own code
objects are followed by the extraction of its captured callables.  A handle
outside the arena contributes no code objects. -/
def boundedExtract (arena : List ArenaFun) (path : List Nat) (h : Nat) :
    Except ExtractError (List Code) :=
  if h ∈ path ∨ arena.length ≤ path.length then .error .cyclicCapture
  else
    match arena[h]? with
    | none => .ok []
    | some af =>
        match boundedExtractList arena (h :: path) af.captured with
        | .error e => .error e
        | .ok sub => .ok (bfsCodes [af.code] ++ sub)
termination_by (arena.length + 1 - path.length, 0)

/-- Modelled from the spec: bounded extraction of a list of captured
handles, aborting on the first cyclic-capture report. -/
def boundedExtractList (arena : List ArenaFun) (path : List Nat) :
    List Nat → Except ExtractError (List Code)
  | [] => .ok []
  | h :: rest =>
      match boundedExtract arena path h with
      | .error e => .error e
      | .ok l =>
          match boundedExtractList arena path rest with
          | .error e => .error e
          | .ok ls => .ok (l ++ ls)
termination_by hs => (arena.length + 1 - path.length, hs.length + 1)
end

theorem boundedExtractList_error_of_mem {arena : List ArenaFun} {path : List Nat}
    {hs : List Nat} {h : Nat} (hmem : h ∈ hs)
    (herr : boundedExtract arena path h = .error .cyclicCapture) :
    boundedExtractList arena path hs = .error .cyclicCapture := by
  induction hs with
  | nil => cases hmem
  | cons h' rest ih =>
    rw [boundedExtractList]
    rcases List.mem_cons.mp hmem with he | he
    · rw [← he, herr]
    · cases hE : boundedExtract arena path h' with
      | error e => cases e; rfl
      | ok l => rw [ih he]

theorem boundedExtract_some {arena : List ArenaFun} {path : List Nat} {h : Nat}
    {af : ArenaFun} (hguard : ¬ (h ∈ path ∨ arena.length ≤ path.length))
    (hlook : arena[h]? = some af) :
    boundedExtract arena path h =
      match boundedExtractList arena (h :: path) af.captured with
      | .error e => .error e
      | .ok sub => .ok (bfsCodes [af.code] ++ sub) := by
  rw [boundedExtract, if_neg hguard, hlook]

theorem boundedExtract_self_capture (arena : List ArenaFun) (path : List Nat)
    (h : Nat) (af : ArenaFun) (hlook : arena[h]? = some af)
    (hself : h ∈ af.captured) :
    boundedExtract arena path h = .error .cyclicCapture := by
  by_cases hguard : h ∈ path ∨ arena.length ≤ path.length
  · rw [boundedExtract, if_pos hguard]
  · have herr : boundedExtract arena (h :: path) h = .error .cyclicCapture := by
      rw [boundedExtract, if_pos (Or.inl (List.mem_cons_self _ _))]
    rw [boundedExtract_some hguard hlook,
      boundedExtractList_error_of_mem hself herr]

/-- Two arena callables capturing each other: a cyclic capture graph. -/
def cyclicArena : List ArenaFun :=
  [⟨leafCode 200 "fa", [1]⟩, ⟨leafCode 201 "fb", [0]⟩]

/-- Two arena callables with a single acyclic capture edge. -/
def acyclicArena : List ArenaFun :=
  [⟨leafCode 202 "ga", [1]⟩, ⟨leafCode 203 "gb", []⟩]

/-- One arena callable capturing itself. -/
def selfArena : List ArenaFun := [⟨leafCode 204 "hself", [0]⟩]

theorem boundedExtract_cyclic_eval :
    boundedExtract cyclicArena [] 0 = .error .cyclicCapture := by
  have h0 : boundedExtract cyclicArena [1, 0] 0 = .error .cyclicCapture := by
    rw [boundedExtract, if_pos (by simp)]
  have h1 : boundedExtract cyclicArena [0] 1 = .error .cyclicCapture := by
    rw [boundedExtract_some (by simp [cyclicArena])
      (show (cyclicArena)[1]? = some ⟨leafCode 201 "fb", [0]⟩ from rfl)]
    rw [boundedExtractList_error_of_mem (List.mem_singleton.mpr rfl) h0]
  rw [boundedExtract_some (by simp [cyclicArena])
    (show (cyclicArena)[0]? = some ⟨leafCode 200 "fa", [1]⟩ from rfl)]
  rw [boundedExtractList_error_of_mem (List.mem_singleton.mpr rfl) h1]

theorem boundedExtract_acyclic_eval :
    boundedExtract acyclicArena [] 0 =
      .ok [leafCode 202 "ga", leafCode 203 "gb"] := by
  have h1 : boundedExtract acyclicArena [0] 1 = .ok [leafCode 203 "gb"] := by
    rw [boundedExtract_some (by simp [acyclicArena])
      (show (acyclicArena)[1]? = some ⟨leafCode 203 "gb", []⟩ from rfl)]
    simp only [boundedExtractList]
    simp [bfsCodes, codeConsts, leafCode, Code.co_consts]
  rw [boundedExtract_some (by simp [acyclicArena])
    (show (acyclicArena)[0]? = some ⟨leafCode 202 "ga", [1]⟩ from rfl)]
  simp only [boundedExtractList, h1]
  simp [bfsCodes, codeConsts, leafCode, Code.co_consts]

/-- C4 (modelled from the spec): the bounded extraction mode — total by
construction over the arena model — raises the distinct cyclic-capture
condition whenever an arena callable captures its own handle, reports the
cycle on the two-callable cyclic arena, and returns the full reachable
code-object list on an acyclic arena. -/
theorem C4_bounded_extraction :
    (∀ (arena : List ArenaFun) (path : List Nat) (h : Nat) (af : ArenaFun),
      arena[h]? = some af → h ∈ af.captured →
      boundedExtract arena path h = .error .cyclicCapture) ∧
    boundedExtract cyclicArena [] 0 = .error .cyclicCapture ∧
    boundedExtract acyclicArena [] 0 = .ok [leafCode 202 "ga", leafCode 203 "gb"] :=
  ⟨boundedExtract_self_capture, boundedExtract_cyclic_eval,
    boundedExtract_acyclic_eval⟩

/-- Witness for C4: the self-capturing one-callable arena reports a cyclic
capture. -/
theorem C4_bounded_extraction_witness :
    boundedExtract selfArena [] 0 = .error .cyclicCapture :=
  C4_bounded_extraction.1 selfArena [] 0 ⟨leafCode 204 "hself", [0]⟩ rfl
    (List.mem_singleton.mpr rfl)
